import Mathlib

/-!
Shallow embedding of the pokemon-rs controller core: the session state
machine (`state_engine`), reward shaping (`rl_feedback_loop/reward.rs`),
the in-memory wallet store (`persistence_metrics/mod.rs`), the in-memory
experience store and export pagination (`rl_feedback_loop/store.rs`,
`rl_feedback_loop/export.rs`), the token validator (`auth.rs`) and the
fixed-window rate limiter (`ratelimit.rs`).

Modelling conventions: Rust `f64` money/reward amounts are embedded as
exact rationals `ℚ` (the claims under scrutiny concern control flow and
exact algebraic identities, not IEEE-754 rounding); `Uuid` is embedded as
`Nat`; `Instant` as a `Nat` tick passed explicitly; `HashMap` as an
association list; Rust's stable `sort_by` as a stable insertion sort over
the same comparator.
-/

namespace PokemonRs

/-- Decidable equality for `Except`, required to evaluate the embedded
fallible operations on concrete inputs. -/
instance {ε α : Type} [DecidableEq ε] [DecidableEq α] : DecidableEq (Except ε α) :=
  fun x y =>
    match x, y with
    | Except.ok a, Except.ok b =>
      if h : a = b then isTrue (by rw [h])
      else isFalse (fun hc => by cases hc; exact h rfl)
    | Except.error a, Except.error b =>
      if h : a = b then isTrue (by rw [h])
      else isFalse (fun hc => by cases hc; exact h rfl)
    | Except.ok _, Except.error _ => isFalse (fun hc => by cases hc)
    | Except.error _, Except.ok _ => isFalse (fun hc => by cases hc)

/-! ## state_engine/mod.rs -/

/-- Session state per the `GameState` enum. -/
inductive GameState where
  | Idle
  | Initialized
  | Probing
  | Playing
  | Evaluating
  | Completed
deriving DecidableEq, Repr, Fintype

/-- State transition errors (`StateError`). -/
inductive StateError where
  | InvalidTransition (from_ : GameState) (to_ : GameState)
  | NotFound
deriving DecidableEq, Repr

/-- Allowed next states from each state (the `ALLOWED` table). -/
def ALLOWED : List (GameState × List GameState) :=
  [ (GameState.Idle, [GameState.Initialized]),
    (GameState.Initialized, [GameState.Probing, GameState.Playing]),
    (GameState.Probing, [GameState.Playing]),
    (GameState.Playing, [GameState.Evaluating]),
    (GameState.Evaluating, [GameState.Playing, GameState.Completed]),
    (GameState.Completed, []) ]

/-- Embedding of `transition`: `from == to` is accepted; otherwise look up
`from` in `ALLOWED` and accept exactly the listed successors. -/
def transition (from_ to_ : GameState) : Except StateError GameState :=
  if from_ = to_ then Except.ok to_
  else
    let allowed := ((ALLOWED.find? (fun p => p.1 = from_)).map Prod.snd).getD []
    if to_ ∈ allowed then Except.ok to_
    else Except.error (StateError.InvalidTransition from_ to_)

/-- The edge set of the claimed transition table, as a plain list of pairs. -/
def allowedPairs : List (GameState × GameState) :=
  [ (GameState.Idle, GameState.Initialized),
    (GameState.Initialized, GameState.Probing),
    (GameState.Initialized, GameState.Playing),
    (GameState.Probing, GameState.Playing),
    (GameState.Playing, GameState.Evaluating),
    (GameState.Evaluating, GameState.Playing),
    (GameState.Evaluating, GameState.Completed) ]

/-! ## rl_feedback_loop/reward.rs -/

/-- Weight applied to the human-likeness score (`LIKENESS_WEIGHT = 0.3`). -/
def LIKENESS_WEIGHT : ℚ := 3 / 10

/-- Reward computation errors (`RewardError`). -/
inductive RewardError where
  | NegativeCost (cost : ℚ)
  | InvalidLikeness (likeness : ℚ)
deriving DecidableEq, Repr

/-- Decomposed reward components (`RewardComponents`). -/
structure RewardComponents where
  payout_reward : ℚ
  cost_penalty : ℚ
  likeness_bonus : ℚ
  completion_bonus : ℚ
deriving DecidableEq, Repr

/-- Embedding of `compute_reward_components`; `cost.max(0.0)` is `max cost 0`
and `likeness.clamp(0.0, 1.0)` is `min (max likeness 0) 1`. -/
def compute_reward_components (payout stake cost likeness : ℚ) (done : Bool) :
    RewardComponents :=
  { payout_reward := payout - stake
    cost_penalty := -(max cost 0)
    likeness_bonus := min (max likeness 0) 1 * LIKENESS_WEIGHT
    completion_bonus := if done ∧ 0 < payout then 1 else 0 }

/-- Embedding of `sum_reward`. -/
def sum_reward (c : RewardComponents) : ℚ :=
  c.payout_reward + c.cost_penalty + c.likeness_bonus + c.completion_bonus

/-- Embedding of `compute_reward` (the strict, validating form). -/
def compute_reward (payout stake operational_cost human_likeness_score : ℚ) :
    Except RewardError ℚ :=
  if operational_cost < 0 then
    Except.error (RewardError.NegativeCost operational_cost)
  else if ¬(0 ≤ human_likeness_score ∧ human_likeness_score ≤ 1) then
    Except.error (RewardError.InvalidLikeness human_likeness_score)
  else
    Except.ok ((payout - stake) - operational_cost + human_likeness_score)

/-- Embedding of `compute_reward_safe`: clamping form, `done := false`. -/
def compute_reward_safe (payout stake operational_cost human_likeness_score : ℚ) : ℚ :=
  sum_reward
    (compute_reward_components payout stake operational_cost human_likeness_score false)

/-! ## api.rs and app_state.rs data model -/

/-- Currency per the OpenAPI enum. -/
inductive Currency where
  | AUD
  | USD
  | EUR
deriving DecidableEq, Repr

/-- Money: amount plus currency (`f64` amount embedded as `ℚ`). -/
structure Money where
  amount : ℚ
  currency : Currency
deriving DecidableEq, Repr

/-- Wallet per the OpenAPI schema. -/
structure Wallet where
  wallet_id : Nat
  balance : Money
  daily_limit : Money
  daily_spent : Money
deriving DecidableEq, Repr

/-- Wallet operation kind. -/
inductive WalletOperationType where
  | Debit
  | Credit
deriving DecidableEq, Repr

/-- Domain errors (`DomainError` in `app_state.rs`). -/
inductive DomainError where
  | NotFound (id : Nat)
  | InvalidTransition (from_ : GameState)
  | WalletLimitExceeded
  | InvalidInput (reason : String)
  | Internal (reason : String)
  | RateLimitExceeded
deriving DecidableEq, Repr

/-! ## persistence_metrics/mod.rs: InMemoryWalletStore

The `HashMap<Uuid, Wallet>` is embedded as an association list from `Nat`
to `Wallet`; `get_mut` followed by in-place mutation becomes a lookup plus
a pointwise update of the matching entry. -/

/-- Association-list wallet table standing in for `HashMap<Uuid, Wallet>`. -/
abbrev WalletStore := List (Nat × Wallet)

/-- Lookup of a wallet by id (first matching entry). -/
def walletLookup (s : WalletStore) (id : Nat) : Option Wallet :=
  (s.find? (fun p => p.1 = id)).map Prod.snd

/-- Replace the entry for `id` with `w` (models mutation through `get_mut`). -/
def walletUpdate (s : WalletStore) (id : Nat) (w : Wallet) : WalletStore :=
  s.map (fun p => if p.1 = id then (id, w) else p)

/-- Embedding of `InMemoryWalletStore::apply_operation`: debit checks the
balance then the daily limit, failing with `WalletLimitExceeded`; credit
unconditionally increments the balance. The result pairs the Rust return
value (`Result<Wallet, DomainError>`) with the store as it stands after the
call, so the early error returns demonstrably leave the store untouched. -/
def apply_operation (s : WalletStore) (wallet_id : Nat)
    (operation : WalletOperationType) (amount : Money) :
    Except DomainError Wallet × WalletStore :=
  match walletLookup s wallet_id with
  | none => (Except.error (DomainError.NotFound wallet_id), s)
  | some wallet =>
    match operation with
    | WalletOperationType.Debit =>
      if wallet.balance.amount < amount.amount then
        (Except.error DomainError.WalletLimitExceeded, s)
      else if wallet.daily_limit.amount < wallet.daily_spent.amount + amount.amount then
        (Except.error DomainError.WalletLimitExceeded, s)
      else
        let wallet' :=
          { wallet with
            balance := { wallet.balance with
                          amount := wallet.balance.amount - amount.amount }
            daily_spent := { wallet.daily_spent with
                              amount := wallet.daily_spent.amount + amount.amount } }
        (Except.ok wallet', walletUpdate s wallet_id wallet')
    | WalletOperationType.Credit =>
      let wallet' :=
        { wallet with
          balance := { wallet.balance with
                        amount := wallet.balance.amount + amount.amount } }
      (Except.ok wallet', walletUpdate s wallet_id wallet')

/-- Body of the create-wallet endpoint (`CreateWalletRequest`). -/
structure CreateWalletRequest where
  wallet_id : Option Nat
  balance : Money
  daily_limit : Money
deriving DecidableEq, Repr

/-- Pure core of `create_wallet_handler` in `cli/src/server.rs`: take the
requested id or a freshly generated one, and initialise `daily_spent` to
zero in the balance currency. -/
def wallet_from_request (req : CreateWalletRequest) (fresh_id : Nat) : Wallet :=
  { wallet_id := req.wallet_id.getD fresh_id
    balance := req.balance
    daily_limit := req.daily_limit
    daily_spent := { amount := 0, currency := req.balance.currency } }

/-- The wallet invariants of spec §3: non-negative balance and daily spend
within the daily limit. -/
def WalletInv (w : Wallet) : Prop :=
  0 ≤ w.balance.amount ∧ w.daily_spent.amount ≤ w.daily_limit.amount

instance (w : Wallet) : Decidable (WalletInv w) := by
  unfold WalletInv; infer_instance

/-! ## rl_feedback_loop/experience.rs and store.rs -/

/-- RL experience tuple; the opaque `serde_json::Value` blobs are embedded
as strings, `created_at` as an optional `Nat` timestamp. -/
structure Experience where
  id : Nat
  session_id : Nat
  state : String
  action : String
  reward : ℚ
  next_state : String
  done : Bool
  created_at : Option Nat
deriving DecidableEq, Repr

/-- Embedding of `Experience::is_session_valid` (`Uuid::nil()` is `0`). -/
def Experience.is_session_valid (e : Experience) : Bool :=
  e.session_id ≠ 0

/-- Store errors (`StoreError`). -/
inductive StoreError where
  | InvalidSessionId
  | Other (msg : String)
deriving DecidableEq, Repr

/-- Association-list table standing in for `HashMap<Uuid, Vec<Experience>>`. -/
abbrev ExpStore := List (Nat × List Experience)

/-- Lookup of the per-session vector. -/
def expLookup (s : ExpStore) (sid : Nat) : Option (List Experience) :=
  (s.find? (fun p => p.1 = sid)).map Prod.snd

/-- Push `e` onto the vector of its session (`entry(...).or_default().push`). -/
def expPush (s : ExpStore) (sid : Nat) (e : Experience) : ExpStore :=
  match expLookup s sid with
  | some _ => s.map (fun p => if p.1 = sid then (sid, p.2 ++ [e]) else p)
  | none => s ++ [(sid, [e])]

/-- Embedding of `InMemoryStore::insert_experience`. -/
def insert_experience (s : ExpStore) (e : Experience) : Except StoreError ExpStore :=
  if e.is_session_valid then Except.ok (expPush s e.session_id e)
  else Except.error StoreError.InvalidSessionId

/-- The comparator passed to `sort_by` in `list_by_session`, on the
`created_at` fields: both timestamps compare numerically, a present
timestamp is `Less` than an absent one, absent ones are `Equal`. -/
def tsCmp : Option Nat → Option Nat → Ordering
  | some ta, some tb => compare ta tb
  | some _, none => Ordering.lt
  | none, some _ => Ordering.gt
  | none, none => Ordering.eq

/-- Boolean at-most-or-equal relation induced by the comparator. -/
def expLe (a b : Experience) : Bool :=
  tsCmp a.created_at b.created_at != Ordering.gt

/-- Insert `a` into `l` before the first element not below it. Together with
`sortByStable` this is a stable insertion sort; Rust's `sort_by` is a stable
sort over the same total preorder, and a stable sort's output is uniquely
determined by the comparator, so the two agree. -/
def insertSorted (le : α → α → Bool) (a : α) : List α → List α
  | [] => [a]
  | b :: l => if le a b then a :: b :: l else b :: insertSorted le a l

/-- Stable sort by a boolean total preorder. -/
def sortByStable (le : α → α → Bool) : List α → List α
  | [] => []
  | x :: xs => insertSorted le x (sortByStable le xs)

/-- Embedding of `InMemoryStore::list_by_session`: clone the per-session
vector (empty when absent) and stable-sort it by `created_at`. -/
def list_by_session (s : ExpStore) (sid : Nat) : Except StoreError (List Experience) :=
  Except.ok (sortByStable expLe ((expLookup s sid).getD []))

/-! ## rl_feedback_loop/export.rs -/

/-- Pagination parameters (`ExportParams`); the `u32` fields are embedded as
`Nat` (values are clamped well below `2^32` before use). -/
structure ExportParams where
  session_id : Nat
  limit : Nat
  offset : Nat
deriving DecidableEq, Repr

/-- Gymnasium export record (`ExportRecord`). -/
structure ExportRecord where
  id : Nat
  session_id : Nat
  state : String
  action : String
  reward : ℚ
  next_state : String
  done : Bool
  created_at : Option Nat
deriving DecidableEq, Repr

/-- The `From<&Experience> for ExportRecord` conversion. -/
def ExportRecord.ofExperience (e : Experience) : ExportRecord :=
  { id := e.id
    session_id := e.session_id
    state := e.state
    action := e.action
    reward := e.reward
    next_state := e.next_state
    done := e.done
    created_at := e.created_at }

/-- Export response (`ExportResponse`). -/
structure ExportResponse where
  experiences : List ExportRecord
deriving DecidableEq, Repr

/-- Embedding of `export_experiences`: list the session, clamp `limit` to
`[1, 10000]` and `offset` to `[0, len]`, and return the slice
`list[start..end]` with `end = min (start + limit) len`. -/
def export_experiences (s : ExpStore) (params : ExportParams) :
    Except StoreError ExportResponse :=
  match list_by_session s params.session_id with
  | Except.error e => Except.error e
  | Except.ok list =>
    let limit := min (max params.limit 1) 10000
    let offset := min params.offset list.length
    let start := offset
    let stop := min (start + limit) list.length
    let slice := (list.drop start).take (stop - start)
    Except.ok { experiences := slice.map ExportRecord.ofExperience }

/-! ## auth.rs -/

/-- Minimal RBAC role. -/
inductive Role where
  | User
  | Admin
deriving DecidableEq, Repr

/-- Authentication errors (`AuthError`). -/
inductive AuthError where
  | InvalidToken
  | Unauthorized
deriving DecidableEq, Repr

/-- Rust's `str::starts_with`, phrased on the underlying character lists so
that it evaluates inside the kernel (extensionally `String.startsWith`). -/
def strStartsWith (s p : String) : Bool :=
  p.data.isPrefixOf s.data

/-- Embedding of `validate_token`; the `HashSet<String>` of API keys is
embedded as a list used only through emptiness and membership. -/
def validate_token (token : String) (api_keys : List String) : Except AuthError Role :=
  if token = "" then Except.error AuthError.InvalidToken
  else if api_keys ≠ [] ∧ token ∉ api_keys then Except.error AuthError.Unauthorized
  else if strStartsWith token "admin:" then Except.ok Role.Admin
  else Except.ok Role.User

/-! ## ratelimit.rs

`Instant::now()` is passed in explicitly as a `Nat` tick; `duration_since`
becomes truncated `Nat` subtraction (instants are monotone, so the minuend
is never smaller in a real execution). The `HashMap<String, (Instant, u32)>`
is an association list. -/

/-- Rate limiter configuration. -/
structure RateLimiter where
  max_requests : Nat
  window : Nat
deriving DecidableEq, Repr

/-- Per-key table of `(window_start, count)`. -/
abbrev RateTable := List (String × (Nat × Nat))

/-- Lookup of a key's window entry. -/
def rateLookup (g : RateTable) (k : String) : Option (Nat × Nat) :=
  (g.find? (fun p => p.1 = k)).map Prod.snd

/-- Replace the entry for `k` with `v`. -/
def rateUpdate (g : RateTable) (k : String) (v : Nat × Nat) : RateTable :=
  g.map (fun p => if p.1 = k then (k, v) else p)

/-- Embedding of `RateLimiter::check`: insert `(now, 0)` for a fresh key,
reset to `(now, 1)` and allow when the window has elapsed, deny when the
count has reached `max_requests`, otherwise increment and allow. Returns
the decision together with the updated table. -/
def check (rl : RateLimiter) (g : RateTable) (k : String) (now : Nat) :
    Bool × RateTable :=
  let entry := (rateLookup g k).getD (now, 0)
  let g1 := match rateLookup g k with
    | some _ => g
    | none => g ++ [(k, (now, 0))]
  if rl.window ≤ now - entry.1 then (true, rateUpdate g1 k (now, 1))
  else if rl.max_requests ≤ entry.2 then (false, g1)
  else (true, rateUpdate g1 k (entry.1, entry.2 + 1))

/-- Fold a sequence of `check` calls at the given instants over one key,
collecting the decisions and threading the table. -/
def checkSeq (rl : RateLimiter) (g : RateTable) (k : String) :
    List Nat → List Bool × RateTable
  | [] => ([], g)
  | t :: ts =>
    let r1 := check rl g k t
    let rest := checkSeq rl r1.2 k ts
    (r1.1 :: rest.1, rest.2)

/-! ## Derived forms used in the statements below -/

/-- The list `list_by_session` returns: the session's stored vector,
stable-sorted by `created_at`. -/
def sessionExperiences (s : ExpStore) (sid : Nat) : List Experience :=
  sortByStable expLe ((expLookup s sid).getD [])

/-- The wallet a successful debit yields: balance decremented, daily spend
incremented, everything else unchanged. -/
def debited (w : Wallet) (amount : Money) : Wallet :=
  { w with
    balance := { w.balance with amount := w.balance.amount - amount.amount }
    daily_spent := { w.daily_spent with amount := w.daily_spent.amount + amount.amount } }

/-- The wallet a credit yields: balance incremented, everything else
unchanged. -/
def credited (w : Wallet) (amount : Money) : Wallet :=
  { w with
    balance := { w.balance with amount := w.balance.amount + amount.amount } }

/-- The sort key of the experience comparator, mapped into `WithTop ℕ` so
that a missing `created_at` is the top element. -/
def tsKey : Option Nat → WithTop Nat
  | some t => (Option.some t : WithTop Nat)
  | none => ⊤

/-- Concrete wallet used to exhibit behaviour on explicit inputs. -/
def cxWallet : Wallet :=
  ⟨1, ⟨100, Currency.AUD⟩, ⟨1000, Currency.AUD⟩, ⟨0, Currency.AUD⟩⟩

/-- Concrete zero-balance wallet (satisfies the wallet invariants). -/
def cxWalletZero : Wallet :=
  ⟨1, ⟨0, Currency.AUD⟩, ⟨0, Currency.AUD⟩, ⟨0, Currency.AUD⟩⟩

/-- Concrete experience without a `created_at` timestamp. -/
def cxExpNone : Experience := ⟨1, 5, "s0", "a0", 0, "s1", false, none⟩

/-- Concrete experience with a `created_at` timestamp. -/
def cxExpSome : Experience := ⟨2, 5, "s0", "a1", 0, "s1", true, some 7⟩

/-! ## Theorems -/

/-- C2: for every pair of states, `transition a b` succeeds with `Ok(b)`
exactly when `(a, b)` is an edge of the canonical table or `a = b`, and on
every other pair fails with `InvalidTransition` carrying `from = a` and
`to = b`. -/
theorem transition_matches_table :
    ∀ a b : GameState,
      (transition a b = Except.ok b ↔ ((a, b) ∈ allowedPairs ∨ a = b))
      ∧ (transition a b = Except.error (StateError.InvalidTransition a b)
          ↔ ¬((a, b) ∈ allowedPairs ∨ a = b)) := by
  decide

/-- C3: for all inputs, the safe reward form is exactly the sum of the four
components `(payout − stake)`, `−max(0, cost)`, `clamp(likeness, 0, 1) × 0.3`
and a completion bonus that is `1` iff `done ∧ payout > 0`; the decomposed
components are available alongside the scalar. -/
theorem reward_safe_components :
    ∀ (payout stake cost likeness : ℚ) (done : Bool),
      (compute_reward_components payout stake cost likeness done).payout_reward
          = payout - stake
      ∧ (compute_reward_components payout stake cost likeness done).cost_penalty
          = -(max 0 cost)
      ∧ (compute_reward_components payout stake cost likeness done).likeness_bonus
          = min (max likeness 0) 1 * (3 / 10)
      ∧ (compute_reward_components payout stake cost likeness done).completion_bonus
          = (if done ∧ 0 < payout then 1 else 0)
      ∧ sum_reward (compute_reward_components payout stake cost likeness done)
          = (payout - stake) + (-(max 0 cost)) + (min (max likeness 0) 1 * (3 / 10))
            + (if done ∧ 0 < payout then (1 : ℚ) else 0)
      ∧ compute_reward_safe payout stake cost likeness
          = sum_reward (compute_reward_components payout stake cost likeness false) := by
  intro payout stake cost likeness done
  refine ⟨rfl, by simp [compute_reward_components, max_comm], rfl, rfl, ?_, rfl⟩
  simp [sum_reward, compute_reward_components, LIKENESS_WEIGHT, max_comm]

/-- C5: the strict reward form fails with `NegativeCost` exactly when the
cost is negative, then with `InvalidLikeness` exactly when the likeness is
outside `[0, 1]`, and on valid inputs returns exactly
`(payout − stake) − cost + likeness`, unweighted. -/
theorem reward_strict_spec :
    ∀ payout stake operational_cost human_likeness_score : ℚ,
      (compute_reward payout stake operational_cost human_likeness_score
          = Except.error (RewardError.NegativeCost operational_cost)
        ↔ operational_cost < 0)
      ∧ (0 ≤ operational_cost →
          (compute_reward payout stake operational_cost human_likeness_score
              = Except.error (RewardError.InvalidLikeness human_likeness_score)
            ↔ ¬(0 ≤ human_likeness_score ∧ human_likeness_score ≤ 1)))
      ∧ (0 ≤ operational_cost → 0 ≤ human_likeness_score → human_likeness_score ≤ 1 →
          compute_reward payout stake operational_cost human_likeness_score
            = Except.ok ((payout - stake) - operational_cost + human_likeness_score)) := by
  intro payout stake c l
  unfold compute_reward
  refine ⟨?_, ?_, ?_⟩
  · split_ifs with h1 h2 <;> simp_all
  · intro hc
    rw [if_neg (not_lt.mpr hc)]
    split_ifs with h2 <;> simpa using h2
  · intro hc h0 h1
    rw [if_neg (not_lt.mpr hc), if_neg (not_not_intro ⟨h0, h1⟩)]

/-- C7: `validate_token` rejects the empty token with `InvalidToken`, rejects
a token outside a non-empty key set with `Unauthorized`, and otherwise grants
`Admin` exactly when the token starts with the literal `admin:` prefix and
`User` otherwise. -/
theorem validate_token_spec :
    ∀ (token : String) (api_keys : List String),
      (validate_token token api_keys = Except.error AuthError.InvalidToken ↔ token = "")
      ∧ (token ≠ "" →
          (validate_token token api_keys = Except.error AuthError.Unauthorized
            ↔ (api_keys ≠ [] ∧ token ∉ api_keys)))
      ∧ (token ≠ "" → (api_keys = [] ∨ token ∈ api_keys) →
          validate_token token api_keys
            = Except.ok (if strStartsWith token "admin:" then Role.Admin else Role.User)) := by
  intro token api_keys
  unfold validate_token
  refine ⟨?_, ?_, ?_⟩
  · split_ifs with h1 h2 h3 <;> simp_all
  · intro ht
    split_ifs with h1 h2 h3 <;> simp_all
  · intro ht hk
    rcases hk with hk | hk <;> split_ifs with h1 h2 h3 <;> simp_all

/-- C1: for a stored wallet and a non-negative amount, a debit succeeds with
`balance' = balance − amount` and `daily_spent' = daily_spent + amount` iff
the balance covers the amount and the daily limit is not exceeded, and
otherwise fails with `WalletLimitExceeded` leaving the store unchanged; a
credit always succeeds, incrementing the balance and leaving `daily_spent`
unchanged; an operation on an id not in the store fails with `NotFound`
leaving the store unchanged. -/
theorem wallet_apply_operation_spec :
    ∀ (s : WalletStore) (id : Nat) (amount : Money) (w : Wallet),
      walletLookup s id = some w → 0 ≤ amount.amount →
      ((amount.amount ≤ w.balance.amount
          ∧ w.daily_spent.amount + amount.amount ≤ w.daily_limit.amount) →
        apply_operation s id WalletOperationType.Debit amount
          = (Except.ok (debited w amount), walletUpdate s id (debited w amount)))
      ∧ (¬(amount.amount ≤ w.balance.amount
          ∧ w.daily_spent.amount + amount.amount ≤ w.daily_limit.amount) →
        apply_operation s id WalletOperationType.Debit amount
          = (Except.error DomainError.WalletLimitExceeded, s))
      ∧ apply_operation s id WalletOperationType.Credit amount
          = (Except.ok (credited w amount), walletUpdate s id (credited w amount))
      ∧ (debited w amount).balance.amount = w.balance.amount - amount.amount
      ∧ (debited w amount).daily_spent.amount = w.daily_spent.amount + amount.amount
      ∧ (credited w amount).balance.amount = w.balance.amount + amount.amount
      ∧ (credited w amount).daily_spent = w.daily_spent
      ∧ ∀ (id2 : Nat) (op : WalletOperationType), walletLookup s id2 = none →
          apply_operation s id2 op amount = (Except.error (DomainError.NotFound id2), s) := by
  intro s id amount w hw hamt
  refine ⟨?_, ?_, ?_, rfl, rfl, rfl, rfl, ?_⟩
  · rintro ⟨h1, h2⟩
    unfold apply_operation
    rw [hw]
    simp only
    rw [if_neg (not_lt.mpr h1), if_neg (not_lt.mpr h2)]
    rfl
  · intro h
    unfold apply_operation
    rw [hw]
    simp only
    rcases not_and_or.mp h with h1 | h2
    · rw [if_pos (not_le.mp h1)]
    · rw [not_le] at h2
      split_ifs with hb
      · rfl
      · rfl
  · unfold apply_operation
    rw [hw]
    rfl
  · intro id2 op h2
    unfold apply_operation
    rw [h2]

/-- C1 witness: on a wallet with balance 100, daily limit 1000 and nothing
spent, a debit of 10 succeeds with balance 90 and daily spend 10. -/
theorem wallet_apply_operation_spec_witness :
    apply_operation [(1, cxWallet)] 1 WalletOperationType.Debit ⟨10, Currency.AUD⟩
      = (Except.ok ⟨1, ⟨90, Currency.AUD⟩, ⟨1000, Currency.AUD⟩, ⟨10, Currency.AUD⟩⟩,
         [(1, ⟨1, ⟨90, Currency.AUD⟩, ⟨1000, Currency.AUD⟩, ⟨10, Currency.AUD⟩⟩)]) := by
  have h :=
    (wallet_apply_operation_spec [(1, cxWallet)] 1 ⟨10, Currency.AUD⟩ cxWallet rfl
        (by norm_num)).1
      (by norm_num [cxWallet])
  rw [h]
  norm_num [debited, walletUpdate, cxWallet]

/-- C9 counterexample: the claim quantifies over every amount value, but a
credit of −1 on an invariant-satisfying wallet yields a wallet with negative
balance, violating `balance.amount ≥ 0`. -/
theorem wallet_invariant_cex :
    WalletInv cxWalletZero
    ∧ (apply_operation [(1, cxWalletZero)] 1 WalletOperationType.Credit
        ⟨-1, Currency.AUD⟩).1
        = Except.ok ⟨1, ⟨-1, Currency.AUD⟩, ⟨0, Currency.AUD⟩, ⟨0, Currency.AUD⟩⟩
    ∧ ¬ WalletInv ⟨1, ⟨-1, Currency.AUD⟩, ⟨0, Currency.AUD⟩, ⟨0, Currency.AUD⟩⟩ := by
  refine ⟨?_, ?_, ?_⟩ <;>
    norm_num [WalletInv, apply_operation, walletLookup, walletUpdate, cxWalletZero,
      List.find?]

/-- C9 (amended): wallets built by the create-wallet orchestration start with
`daily_spent` of amount 0 in the balance currency; and for an
invariant-satisfying stored wallet, a debit of any amount and a credit of a
non-negative amount both yield a wallet that still satisfies
`balance.amount ≥ 0` and `daily_spent.amount ≤ daily_limit.amount`. -/
theorem wallet_invariant_preserved :
    ∀ (req : CreateWalletRequest) (fresh_id : Nat) (s : WalletStore) (id : Nat)
      (amount : Money) (w w' : Wallet),
      walletLookup s id = some w → WalletInv w →
      (wallet_from_request req fresh_id).daily_spent
          = { amount := 0, currency := req.balance.currency }
      ∧ ((apply_operation s id WalletOperationType.Debit amount).1 = Except.ok w' →
          WalletInv w')
      ∧ (0 ≤ amount.amount →
          (apply_operation s id WalletOperationType.Credit amount).1 = Except.ok w' →
          WalletInv w') := by
  intro req fresh_id s id amount w w' hw hinv
  refine ⟨rfl, ?_, ?_⟩
  · intro hok
    unfold apply_operation at hok
    rw [hw] at hok
    simp only at hok
    split_ifs at hok with h1 h2
    simp only [Except.ok.injEq] at hok
    subst hok
    constructor
    · simp only [debited]
      rw [not_lt] at h1
      linarith
    · simp only [debited]
      rw [not_lt] at h2
      linarith
  · intro hpos hok
    unfold apply_operation at hok
    rw [hw] at hok
    simp only [Except.ok.injEq] at hok
    subst hok
    constructor
    · simp only [credited]
      have := hinv.1
      linarith
    · exact hinv.2

/-- Inserting an element permutes consing it. -/
theorem insertSorted_perm {α : Type} (le : α → α → Bool) (a : α) :
    ∀ l : List α, (insertSorted le a l).Perm (a :: l)
  | [] => List.Perm.refl _
  | b :: l => by
    unfold insertSorted
    split_ifs with h
    · exact List.Perm.refl _
    · exact ((insertSorted_perm le a l).cons b).trans (List.Perm.swap a b l)

/-- The stable sort is a permutation of its input. -/
theorem sortByStable_perm {α : Type} (le : α → α → Bool) :
    ∀ l : List α, (sortByStable le l).Perm l
  | [] => List.Perm.refl _
  | x :: xs =>
    (insertSorted_perm le x (sortByStable le xs)).trans
      ((sortByStable_perm le xs).cons x)

/-- Inserting into a pairwise-ordered list keeps it pairwise ordered, for a
total transitive boolean relation. -/
theorem pairwise_insertSorted {α : Type} (le : α → α → Bool)
    (htot : ∀ a b, le a b = true ∨ le b a = true)
    (htrans : ∀ a b c, le a b = true → le b c = true → le a c = true) (a : α) :
    ∀ l : List α, l.Pairwise (fun x y => le x y = true) →
      (insertSorted le a l).Pairwise (fun x y => le x y = true)
  | [], _ => by simp [insertSorted]
  | b :: l, h => by
    unfold insertSorted
    rcases List.pairwise_cons.mp h with ⟨hb, hl⟩
    split_ifs with hab
    · refine List.pairwise_cons.mpr ⟨?_, h⟩
      intro x hx
      rcases List.mem_cons.mp hx with rfl | hx
      · exact hab
      · exact htrans a b x hab (hb x hx)
    · have hba : le b a = true := (htot a b).resolve_left hab
      refine List.pairwise_cons.mpr ⟨?_, pairwise_insertSorted le htot htrans a l hl⟩
      intro x hx
      have hx' : x = a ∨ x ∈ l := by
        simpa using (insertSorted_perm le a l).mem_iff.mp hx
      rcases hx' with rfl | hx'
      · exact hba
      · exact hb x hx'

/-- The stable sort is pairwise ordered, for a total transitive boolean
relation. -/
theorem sortByStable_pairwise {α : Type} (le : α → α → Bool)
    (htot : ∀ a b, le a b = true ∨ le b a = true)
    (htrans : ∀ a b c, le a b = true → le b c = true → le a c = true) :
    ∀ l : List α, (sortByStable le l).Pairwise (fun x y => le x y = true)
  | [] => by simp [sortByStable]
  | x :: xs =>
    pairwise_insertSorted le htot htrans x _
      (sortByStable_pairwise le htot htrans xs)

/-- Stability of insertion through a key: when incomparability implies
distinct keys, filtering one key class commutes with insertion. -/
theorem filter_insertSorted {α κ : Type} (le : α → α → Bool) (key : α → κ)
    [DecidableEq κ] (hkey : ∀ a b, le a b = false → key a ≠ key b) (t : κ) (a : α) :
    ∀ l : List α,
      (insertSorted le a l).filter (fun x => decide (key x = t))
        = (a :: l).filter (fun x => decide (key x = t))
  | [] => rfl
  | b :: l => by
    unfold insertSorted
    split_ifs with hab
    · rfl
    · have hne : key a ≠ key b := hkey a b (by simpa using hab)
      have ih := filter_insertSorted le key hkey t a l
      by_cases hat : key a = t
      · have hbt : ¬(key b = t) := fun hbt => hne (hat.trans hbt.symm)
        simp [List.filter_cons, hat, hbt, ih]
      · simp [List.filter_cons, hat, ih]

/-- Stability of the stable sort: each key class is returned in input order. -/
theorem filter_sortByStable {α κ : Type} (le : α → α → Bool) (key : α → κ)
    [DecidableEq κ] (hkey : ∀ a b, le a b = false → key a ≠ key b) (t : κ) :
    ∀ l : List α,
      (sortByStable le l).filter (fun x => decide (key x = t))
        = l.filter (fun x => decide (key x = t))
  | [] => rfl
  | x :: xs => by
    have h1 := filter_insertSorted le key hkey t x (sortByStable le xs)
    have h2 := filter_sortByStable le key hkey t xs
    rw [sortByStable, h1, List.filter_cons, List.filter_cons, h2]

/-- The experience comparator agrees with the `WithTop ℕ` order on sort
keys: a present timestamp compares numerically and sorts below an absent
one. -/
theorem expLe_iff_tsKey (a b : Experience) :
    expLe a b = true ↔ tsKey a.created_at ≤ tsKey b.created_at := by
  rcases ha : a.created_at with _ | ta <;> rcases hb : b.created_at with _ | tb <;>
    simp only [expLe, tsCmp, tsKey, ha, hb]
  · exact iff_of_true rfl le_top
  · refine iff_of_false (by decide) ?_
    simp [top_le_iff, WithTop.some_eq_coe]
  · exact iff_of_true rfl le_top
  · rw [WithTop.some_le_some]
    rcases hc : compare ta tb with _ | _ | _
    · exact iff_of_true rfl (Nat.le_of_lt (Nat.compare_eq_lt.mp hc))
    · exact iff_of_true rfl (Nat.le_of_eq (Nat.compare_eq_eq.mp hc))
    · exact iff_of_false (by decide) (Nat.not_le.mpr (Nat.compare_eq_gt.mp hc))

/-- The experience comparator is total. -/
theorem expLe_total (a b : Experience) : expLe a b = true ∨ expLe b a = true := by
  rw [expLe_iff_tsKey, expLe_iff_tsKey]
  exact le_total _ _

/-- The experience comparator is transitive. -/
theorem expLe_trans (a b c : Experience) :
    expLe a b = true → expLe b c = true → expLe a c = true := by
  rw [expLe_iff_tsKey, expLe_iff_tsKey, expLe_iff_tsKey]
  exact le_trans

/-- Experiences the comparator refuses to order below one another have
distinct `created_at` keys. -/
theorem expLe_false_key (a b : Experience) :
    expLe a b = false → a.created_at ≠ b.created_at := by
  intro h heq
  have hle : expLe a b = true := by
    rw [expLe_iff_tsKey, heq]
  rw [h] at hle
  exact Bool.false_ne_true hle

/-- Appending a fresh session entry makes it findable. -/
theorem expLookup_append_new (s : ExpStore) (sid : Nat) (v : List Experience)
    (h : expLookup s sid = none) : expLookup (s ++ [(sid, v)]) sid = some v := by
  induction s with
  | nil => simp [expLookup, List.find?_cons]
  | cons p s' ih =>
    by_cases hp : p.1 = sid
    · exfalso
      simp [expLookup, List.find?_cons, hp] at h
    · have h' : expLookup s' sid = none := by
        simpa [expLookup, List.find?_cons, hp] using h
      simpa [expLookup, List.find?_cons, hp] using ih h'

/-- Pushing onto an existing session entry appends to its vector. -/
theorem expLookup_push_found (s : ExpStore) (sid : Nat) (e : Experience)
    (v : List Experience) (h : expLookup s sid = some v) :
    expLookup (s.map (fun p => if p.1 = sid then (sid, p.2 ++ [e]) else p)) sid
      = some (v ++ [e]) := by
  induction s with
  | nil => simp [expLookup] at h
  | cons p s' ih =>
    by_cases hp : p.1 = sid
    · have hv : p.2 = v := by
        simpa [expLookup, List.find?_cons, hp] using h
      simp [expLookup, List.find?_cons, hp, hv]
    · have h' : expLookup s' sid = some v := by
        simpa [expLookup, List.find?_cons, hp] using h
      simpa [expLookup, List.find?_cons, hp] using ih h'

/-- `expPush` appends the experience to its session's vector. -/
theorem expLookup_expPush (s : ExpStore) (sid : Nat) (e : Experience) :
    expLookup (expPush s sid e) sid
      = some (((expLookup s sid).getD []) ++ [e]) := by
  unfold expPush
  cases h : expLookup s sid with
  | none => simpa using expLookup_append_new s sid [e] h
  | some v => simpa [h] using expLookup_push_found s sid e v h

/-- C4 counterexample: inserting an experience without `created_at` and then
one with `created_at = 7` into one session, `list_by_session` returns the
timestamped experience first — the experience lacking `created_at` is placed
after, not before, the one having it. -/
theorem list_by_session_none_last_cex :
    insert_experience [] cxExpNone = Except.ok [(5, [cxExpNone])]
    ∧ insert_experience [(5, [cxExpNone])] cxExpSome
        = Except.ok [(5, [cxExpNone, cxExpSome])]
    ∧ cxExpNone.created_at = none
    ∧ cxExpSome.created_at = some 7
    ∧ list_by_session [(5, [cxExpNone, cxExpSome])] 5
        = Except.ok [cxExpSome, cxExpNone]
    ∧ [cxExpSome, cxExpNone] ≠ [cxExpNone, cxExpSome] := by
  refine ⟨?_, ?_, ?_, ?_, ?_, ?_⟩ <;> decide

/-- C4 (amended): `list_by_session` returns exactly the experiences of the
session, sorted by `created_at` ascending with experiences lacking
`created_at` placed after those having one, and insertion order preserved
within each `created_at` class (stable sort); insertion appends to the
session's stored vector. -/
theorem list_by_session_sorted_spec :
    ∀ (s : ExpStore) (sid : Nat),
      list_by_session s sid = Except.ok (sessionExperiences s sid)
      ∧ (sessionExperiences s sid).Perm ((expLookup s sid).getD [])
      ∧ (sessionExperiences s sid).Pairwise (fun a b => expLe a b = true)
      ∧ (sessionExperiences s sid).Pairwise
          (fun a b => a.created_at = none → b.created_at = none)
      ∧ (sessionExperiences s sid).Pairwise
          (fun a b => ∀ ta tb, a.created_at = some ta → b.created_at = some tb → ta ≤ tb)
      ∧ (∀ t : Option Nat,
          (sessionExperiences s sid).filter (fun e => decide (e.created_at = t))
            = ((expLookup s sid).getD []).filter (fun e => decide (e.created_at = t)))
      ∧ (∀ e : Experience,
          (expLookup (expPush s sid e) sid).getD []
            = ((expLookup s sid).getD []) ++ [e]) := by
  intro s sid
  have hpw : (sessionExperiences s sid).Pairwise (fun a b => expLe a b = true) :=
    sortByStable_pairwise expLe expLe_total expLe_trans _
  refine ⟨rfl, sortByStable_perm expLe _, hpw, ?_, ?_, ?_, ?_⟩
  · refine hpw.imp ?_
    intro a b hab ha
    rw [expLe_iff_tsKey, ha] at hab
    simp only [tsKey, top_le_iff] at hab
    cases hb : b.created_at with
    | none => rfl
    | some tb =>
      rw [hb] at hab
      simp only [tsKey, WithTop.some_eq_coe] at hab
      exact absurd hab WithTop.coe_ne_top
  · refine hpw.imp ?_
    intro a b hab ta tb ha hb
    rw [expLe_iff_tsKey, ha, hb] at hab
    simp only [tsKey, WithTop.some_le_some] at hab
    exact hab
  · intro t
    exact filter_sortByStable expLe (fun e => e.created_at) expLe_false_key t _
  · intro e
    rw [expLookup_expPush]
    simp

/-- C8: the RL export clamps `limit` to `[1, 10000]` and `offset` to
`[0, len]`, and returns exactly the contiguous window of the session's
ordered experience list starting at the clamped offset, of length
`min(clamped limit, remaining elements)`. -/
theorem export_pagination_spec :
    ∀ (s : ExpStore) (params : ExportParams),
      list_by_session s params.session_id
          = Except.ok (sessionExperiences s params.session_id)
      ∧ export_experiences s params
          = Except.ok
              { experiences :=
                  (((sessionExperiences s params.session_id).drop
                      (min params.offset (sessionExperiences s params.session_id).length)).take
                      (min (max params.limit 1) 10000)).map ExportRecord.ofExperience }
      ∧ (((sessionExperiences s params.session_id).drop
            (min params.offset (sessionExperiences s params.session_id).length)).take
            (min (max params.limit 1) 10000)).length
          = min (min (max params.limit 1) 10000)
              ((sessionExperiences s params.session_id).length
                - min params.offset (sessionExperiences s params.session_id).length) := by
  intro s params
  refine ⟨rfl, ?_, ?_⟩
  · show Except.ok _ = _
    have hslice :
        ((sessionExperiences s params.session_id).drop
            (min params.offset (sessionExperiences s params.session_id).length)).take
            (min (min params.offset (sessionExperiences s params.session_id).length
                + min (max params.limit 1) 10000)
              (sessionExperiences s params.session_id).length
              - min params.offset (sessionExperiences s params.session_id).length)
          = ((sessionExperiences s params.session_id).drop
              (min params.offset (sessionExperiences s params.session_id).length)).take
              (min (max params.limit 1) 10000) := by
      refine List.take_eq_take.mpr ?_
      rw [List.length_drop]
      omega
    simpa [export_experiences, list_by_session, sessionExperiences] using
      congrArg (fun l : List Experience =>
        (Except.ok (ExportResponse.mk (l.map ExportRecord.ofExperience)) :
          Except StoreError ExportResponse)) hslice
  · rw [List.length_take, List.length_drop]

/-- C10: a session id with no stored experiences is not an error:
`list_by_session` returns `Ok` with the empty list and `export_experiences`
returns `Ok` with an empty experiences collection. -/
theorem empty_session_not_error :
    ∀ (s : ExpStore) (sid limit offset : Nat),
      (expLookup s sid).getD [] = [] →
      list_by_session s sid = Except.ok []
      ∧ export_experiences s ⟨sid, limit, offset⟩ = Except.ok { experiences := [] } := by
  intro s sid limit offset h
  have hl : list_by_session s sid = Except.ok [] := by
    unfold list_by_session
    rw [h]
    rfl
  refine ⟨hl, ?_⟩
  unfold export_experiences
  rw [hl]
  simp

/-- C10 witness: the empty store holds nothing for session 3, and listing or
exporting it succeeds with empty results. -/
theorem empty_session_not_error_witness :
    list_by_session [] 3 = Except.ok []
    ∧ export_experiences [] ⟨3, 7, 2⟩ = Except.ok { experiences := [] } :=
  empty_session_not_error [] 3 7 2 rfl

/-- Updating a present key makes the new value findable. -/
theorem rateLookup_rateUpdate_self (g : RateTable) (k : String) (v : Nat × Nat)
    (h : (rateLookup g k).isSome) :
    rateLookup (rateUpdate g k v) k = some v := by
  induction g with
  | nil => simp [rateLookup] at h
  | cons p g' ih =>
    by_cases hp : p.1 = k
    · simp [rateLookup, rateUpdate, List.find?_cons, hp]
    · have h' : (rateLookup g' k).isSome := by
        simpa [rateLookup, List.find?_cons, hp] using h
      simpa [rateLookup, rateUpdate, List.find?_cons, hp] using ih h'

/-- Updating one key leaves every other key's entry unchanged. -/
theorem rateLookup_rateUpdate_ne (g : RateTable) (k k' : String) (v : Nat × Nat)
    (h : k' ≠ k) :
    rateLookup (rateUpdate g k v) k' = rateLookup g k' := by
  have hk : ¬(k = k') := fun hh => h hh.symm
  induction g with
  | nil => rfl
  | cons p g' ih =>
    simp only [rateUpdate, List.map_cons]
    by_cases hp : p.1 = k
    · rw [if_pos hp]
      have hpk : ¬(p.1 = k') := by rw [hp]; exact hk
      simp only [rateLookup, List.find?_cons, decide_eq_false hk, decide_eq_false hpk,
        Bool.false_eq_true, if_false]
      exact ih
    · rw [if_neg hp]
      by_cases hpk : p.1 = k'
      · simp [rateLookup, List.find?_cons, hpk]
      · simp only [rateLookup, List.find?_cons, decide_eq_false hpk, Bool.false_eq_true,
          if_false]
        exact ih

/-- Appending a fresh key makes its entry findable. -/
theorem rateLookup_append (g : RateTable) (k : String) (v : Nat × Nat)
    (h : rateLookup g k = none) :
    rateLookup (g ++ [(k, v)]) k = some v := by
  induction g with
  | nil => simp [rateLookup, List.find?_cons]
  | cons p g' ih =>
    by_cases hp : p.1 = k
    · exfalso
      simp [rateLookup, List.find?_cons, hp] at h
    · have h' : rateLookup g' k = none := by
        simpa [rateLookup, List.find?_cons, hp] using h
      simpa [rateLookup, List.find?_cons, hp] using ih h'

/-- Appending an entry for one key leaves every other key's entry
unchanged. -/
theorem rateLookup_append_ne (g : RateTable) (k k' : String) (v : Nat × Nat)
    (h : k' ≠ k) :
    rateLookup (g ++ [(k, v)]) k' = rateLookup g k' := by
  induction g with
  | nil =>
    have hk : ¬(k = k') := fun hh => h hh.symm
    simp [rateLookup, List.find?_cons, hk]
  | cons p g' ih =>
    by_cases hpk : p.1 = k'
    · simp [rateLookup, List.find?_cons, hpk]
    · simpa [rateLookup, List.find?_cons, hpk] using ih

/-- Behaviour of `check` on a key whose entry is present. -/
theorem check_found (rl : RateLimiter) (g : RateTable) (k : String)
    (t0 c now : Nat) (h : rateLookup g k = some (t0, c)) :
    check rl g k now =
      if rl.window ≤ now - t0 then (true, rateUpdate g k (now, 1))
      else if rl.max_requests ≤ c then (false, g)
      else (true, rateUpdate g k (t0, c + 1)) := by
  unfold check
  rw [h]
  rfl

/-- Behaviour of `check` on a fresh key: the entry `(now, 0)` is inserted and
then advanced like any other entry. -/
theorem check_fresh (rl : RateLimiter) (g : RateTable) (k : String) (now : Nat)
    (h : rateLookup g k = none) :
    check rl g k now =
      if rl.window ≤ 0 then (true, rateUpdate (g ++ [(k, (now, 0))]) k (now, 1))
      else if rl.max_requests ≤ 0 then (false, g ++ [(k, (now, 0))])
      else (true, rateUpdate (g ++ [(k, (now, 0))]) k (now, 0 + 1)) := by
  unfold check
  rw [h]
  simp

/-- Within one window, successive `check` calls on a key whose entry holds
count `c` allow exactly the next `max_requests − c` calls and deny the
rest. -/
theorem checkSeq_burst (rl : RateLimiter) (k : String) (t0 : Nat) :
    ∀ (ts : List Nat) (g : RateTable) (c : Nat),
      rateLookup g k = some (t0, c) →
      (∀ t ∈ ts, t - t0 < rl.window) →
      (checkSeq rl g k ts).1
        = List.replicate (min ts.length (rl.max_requests - c)) true
          ++ List.replicate (ts.length - (rl.max_requests - c)) false
  | [], g, c, _, _ => by simp [checkSeq]
  | t :: ts, g, c, hg, hts => by
    have hwin : ¬ rl.window ≤ t - t0 := not_le.mpr (hts t (List.mem_cons_self t ts))
    have hts' : ∀ x ∈ ts, x - t0 < rl.window :=
      fun x hx => hts x (List.mem_cons_of_mem t hx)
    have hc := check_found rl g k t0 c t hg
    rw [if_neg hwin] at hc
    by_cases hmax : rl.max_requests ≤ c
    · rw [if_pos hmax] at hc
      have ih := checkSeq_burst rl k t0 ts g c hg hts'
      have h1 : rl.max_requests - c = 0 := Nat.sub_eq_zero_of_le hmax
      simp only [checkSeq, hc, ih, h1]
      simp [List.replicate_succ]
    · rw [if_neg hmax] at hc
      have hg' : rateLookup (rateUpdate g k (t0, c + 1)) k = some (t0, c + 1) :=
        rateLookup_rateUpdate_self g k (t0, c + 1) (by rw [hg]; rfl)
      have ih := checkSeq_burst rl k t0 ts (rateUpdate g k (t0, c + 1)) (c + 1) hg' hts'
      have hlt : c < rl.max_requests := not_le.mp hmax
      have h2 : min (ts.length + 1) (rl.max_requests - c)
          = min ts.length (rl.max_requests - (c + 1)) + 1 := by omega
      have h3 : (ts.length + 1) - (rl.max_requests - c)
          = ts.length - (rl.max_requests - (c + 1)) := by omega
      simp only [checkSeq, hc, ih, List.length_cons, h2, h3, List.replicate_succ]
      simp

/-- C6: for each key, starting from a fresh entry the first `max_requests`
calls within one window return true and every further call returns false; a
call after the window has elapsed resets the entry to `(now, 1)` and returns
true; checks on one key neither disturb other keys' entries nor depend on
anything but the checked key's entry. -/
theorem rate_limiter_spec :
    ∀ (rl : RateLimiter) (g : RateTable) (k : String) (t0 c : Nat) (ts : List Nat),
      (rateLookup g k = some (t0, c) → (∀ t ∈ ts, t - t0 < rl.window) →
        (checkSeq rl g k ts).1
          = List.replicate (min ts.length (rl.max_requests - c)) true
            ++ List.replicate (ts.length - (rl.max_requests - c)) false)
      ∧ (rateLookup g k = none → 0 < rl.window → (∀ t ∈ ts, t - t0 < rl.window) →
        (checkSeq rl g k (t0 :: ts)).1
          = List.replicate (min (ts.length + 1) rl.max_requests) true
            ++ List.replicate ((ts.length + 1) - rl.max_requests) false)
      ∧ (∀ now, rateLookup g k = some (t0, c) → rl.window ≤ now - t0 →
        check rl g k now = (true, rateUpdate g k (now, 1)))
      ∧ (∀ now (k' : String), k' ≠ k →
        rateLookup (check rl g k now).2 k' = rateLookup g k')
      ∧ (∀ now (g2 : RateTable), rateLookup g2 k = rateLookup g k →
        (check rl g2 k now).1 = (check rl g k now).1) := by
  intro rl g k t0 c ts
  refine ⟨checkSeq_burst rl k t0 ts g c, ?_, ?_, ?_, ?_⟩
  · intro hnone hwpos hts
    have hc := check_fresh rl g k t0 hnone
    rw [if_neg (by omega)] at hc
    have hg0 : rateLookup (g ++ [(k, (t0, 0))]) k = some (t0, 0) :=
      rateLookup_append g k (t0, 0) hnone
    by_cases hmax0 : rl.max_requests ≤ 0
    · have hmaxeq : rl.max_requests = 0 := Nat.le_antisymm hmax0 (Nat.zero_le _)
      rw [if_pos hmax0] at hc
      have ih := checkSeq_burst rl k t0 ts (g ++ [(k, (t0, 0))]) 0 hg0 hts
      simp only [checkSeq, hc, ih, hmaxeq]
      simp [List.replicate_succ]
    · rw [if_neg hmax0] at hc
      have hg1 : rateLookup (rateUpdate (g ++ [(k, (t0, 0))]) k (t0, 0 + 1)) k
          = some (t0, 0 + 1) :=
        rateLookup_rateUpdate_self (g ++ [(k, (t0, 0))]) k (t0, 0 + 1)
          (by rw [hg0]; rfl)
      have ih := checkSeq_burst rl k t0 ts _ (0 + 1) hg1 hts
      have hpos : 0 < rl.max_requests := not_le.mp hmax0
      have h2 : min (ts.length + 1) rl.max_requests
          = min ts.length (rl.max_requests - 1) + 1 := by omega
      have h3 : (ts.length + 1) - rl.max_requests
          = ts.length - (rl.max_requests - 1) := by omega
      simp only [checkSeq, hc, ih, h2, h3, List.replicate_succ]
      simp
  · intro now hg' hwin
    rw [check_found rl g k t0 c now hg', if_pos hwin]
  · intro now k' hk
    cases hgk : rateLookup g k with
    | some e =>
      rw [check_found rl g k e.1 e.2 now (by rw [hgk])]
      split_ifs
      · exact rateLookup_rateUpdate_ne g k k' _ hk
      · rfl
      · exact rateLookup_rateUpdate_ne g k k' _ hk
    | none =>
      rw [check_fresh rl g k now hgk]
      split_ifs
      · rw [rateLookup_rateUpdate_ne _ k k' _ hk]
        exact rateLookup_append_ne g k k' _ hk
      · exact rateLookup_append_ne g k k' _ hk
      · rw [rateLookup_rateUpdate_ne _ k k' _ hk]
        exact rateLookup_append_ne g k k' _ hk
  · intro now g2 h
    cases hgk : rateLookup g k with
    | some e =>
      rw [check_found rl g2 k e.1 e.2 now (by rw [h, hgk]),
        check_found rl g k e.1 e.2 now (by rw [hgk])]
      split_ifs <;> rfl
    | none =>
      rw [check_fresh rl g2 k now (h.trans hgk), check_fresh rl g k now hgk]
      split_ifs <;> rfl

/-- C6 witness: with `max_requests = 2` and window 10, three checks at times
1, 2, 3 on a key whose window opened at 0 yield allow, allow, deny; a check
at time 10 resets the window; and a check on key `a` does not disturb key
`b`. -/
theorem rate_limiter_spec_witness :
    (checkSeq ⟨2, 10⟩ [("k", (0, 0))] "k" [1, 2, 3]).1 = [true, true, false]
    ∧ check ⟨2, 10⟩ [("k", (0, 2))] "k" 10 = (true, [("k", (10, 1))])
    ∧ rateLookup (check ⟨1, 10⟩ [("a", (0, 0)), ("b", (0, 0))] "a" 3).2 "b"
        = some (0, 0) := by
  refine ⟨?_, ?_, ?_⟩
  · have h := (rate_limiter_spec ⟨2, 10⟩ [("k", (0, 0))] "k" 0 0 [1, 2, 3]).1
      rfl (by decide)
    simpa using h
  · have h := (rate_limiter_spec ⟨2, 10⟩ [("k", (0, 2))] "k" 0 2 []).2.2.1 10
      rfl (by decide)
    rw [h]
    rfl
  · have h := (rate_limiter_spec ⟨1, 10⟩ [("a", (0, 0)), ("b", (0, 0))] "a" 0 0
      []).2.2.2.1 3 "b" (by decide)
    rw [h]
    rfl

/-- C9 witness: the invariant is preserved on a concrete debit of 10 from a
wallet with balance 100 and daily limit 1000. -/
theorem wallet_invariant_preserved_witness :
    WalletInv ⟨1, ⟨90, Currency.AUD⟩, ⟨1000, Currency.AUD⟩, ⟨10, Currency.AUD⟩⟩ := by
  refine (wallet_invariant_preserved ⟨none, ⟨100, Currency.AUD⟩, ⟨1000, Currency.AUD⟩⟩ 0
      [(1, cxWallet)] 1 ⟨10, Currency.AUD⟩ cxWallet
      ⟨1, ⟨90, Currency.AUD⟩, ⟨1000, Currency.AUD⟩, ⟨10, Currency.AUD⟩⟩ rfl
      (by norm_num [WalletInv, cxWallet])).2.1 ?_
  norm_num [apply_operation, walletLookup, walletUpdate, cxWallet, List.find?, debited]

end PokemonRs
